import Mathlib

/-!
# Verification of the Anomaly_Detection preprocessing / detection core

Shallow embedding of the preprocessing pipeline and the statistical
anomaly-detection engine of the repository, together with the frontend
data-routing logic of `AnomalyDetection.tsx`, `DataPreprocessing.tsx`
and `DetectionMethodSettings.tsx`.

The numeric backend (`backend/preprocessing/smoothing.py`,
`backend/routes/preprocessing.py` and the detection routes) is not part
of the source tree that was handed over; those definitions are modelled
from the specification, as indicated in their doc comments.  Frontend
behaviour is embedded directly from the TypeScript components.

Machine floats are modelled by exact rationals (`ℚ`); a possibly-missing
(NaN) value is modelled by `Option ℚ` where the detection path has to
distinguish valid from invalid points.
-/

/-- A time series as exchanged between the components:
`timestamps: string[]` paired with `values: number[]`. -/
structure Series where
  timestamps : List String
  values : List ℚ
deriving Repr, DecidableEq

/-- A series on the detection path, where a value may be missing/NaN
(modelled by `none`). -/
structure DSeries where
  timestamps : List String
  values : List (Option ℚ)
deriving Repr, DecidableEq

/-- Error taxonomy of the validation layer (spec §7). -/
inductive Err where
  | unknownMethod (key : String)
  | parameterOutOfRange (param : String)
  | shapeMismatch
deriving Repr, DecidableEq

/-- Arithmetic mean of a list of rationals (`0` on the empty list,
since `x / 0 = 0` in `ℚ`). -/
def meanQ (l : List ℚ) : ℚ := l.sum / l.length

/-- The in-bounds symmetric window of radius `r` centred at index `i`
of `vs`, clipped to the array bounds: indices
`max 0 (i-r) .. min (i+r) (vs.length-1)` (natural subtraction clips at
zero). -/
def windowSlice (r i : ℕ) (vs : List ℚ) : List ℚ :=
  (vs.drop (i - r)).take (min (i + r) (vs.length - 1) + 1 - (i - r))

/-- Modelled from the spec: `moving_average` of
`backend/preprocessing/smoothing.py` (absent from the handed-over
sources).  `output[i]` is the arithmetic mean of the input values in the
symmetric window of radius `floor(windowSize/2)` centred at `i`, clipped
to the array bounds; edge positions average only the in-bounds subset,
with no zero padding. -/
def movingAverage (windowSize : ℕ) (vs : List ℚ) : List ℚ :=
  (List.range vs.length).map (fun i => meanQ (windowSlice (windowSize / 2) i vs))

/-- One step chain of exponential smoothing: given the previous output
value `prev`, emit `α·v + (1-α)·prev` for each remaining input `v`. -/
def expSmoothAux (α : ℚ) (prev : ℚ) : List ℚ → List ℚ
  | [] => []
  | v :: rest =>
    let cur := α * v + (1 - α) * prev
    cur :: expSmoothAux α cur rest

/-- Modelled from the spec: `exponential` smoothing of
`backend/preprocessing/smoothing.py` (absent from the handed-over
sources).  `α = 2/(windowSize+1)`, `output[0] = values[0]`,
`output[i] = α·values[i] + (1-α)·output[i-1]` for `i > 0`. -/
def exponentialSmooth (windowSize : ℕ) (vs : List ℚ) : List ℚ :=
  match vs with
  | [] => []
  | v :: rest => v :: expSmoothAux (2 / ((windowSize : ℚ) + 1)) v rest

/-- In-bounds index window of radius `r` centred at `i` for a list of
length `n`: the indices `max 0 (i-r) .. min (i+r) (n-1)`. -/
def windowIdx (r i n : ℕ) : List ℕ :=
  (List.range (min (i + r) (n - 1) + 1 - (i - r))).map (fun t => (i - r) + t)

/-- Weighted mean of a list of (weight, value) pairs:
`Σ wⱼ·xⱼ / Σ wⱼ`. -/
def weightedMean (wxs : List (ℚ × ℚ)) : ℚ :=
  (wxs.map (fun p => p.1 * p.2)).sum / (wxs.map Prod.fst).sum

/-- Modelled from the spec: `gaussian` smoothing of
`backend/preprocessing/smoothing.py` (absent from the handed-over
sources).  The discrete Gaussian kernel (std `windowSize/2`, truncated
to `±windowSize` samples) is abstracted as an explicit weight function
`kernel : ℤ → ℚ` on the offset from the centre; each output point is the
kernel-weighted mean renormalized over the in-bounds subset, so edge
points remain unbiased. -/
def gaussianSmooth (kernel : ℤ → ℚ) (windowSize : ℕ) (vs : List ℚ) : List ℚ :=
  (List.range vs.length).map (fun i =>
    weightedMean ((windowIdx windowSize i vs.length).map
      (fun (j : ℕ) => (kernel ((j : ℤ) - (i : ℤ)), vs.getD j 0))))

/-- One raw pipeline stage as sent over the wire: a method key and its
window-size parameter. -/
structure RawStage where
  type : String
  windowSize : ℤ
deriving Repr, DecidableEq

/-- Modelled from the spec: the method registry's preprocessing keys
(`DataSmoothing.SUPPORTED_METHODS` in the absent backend). -/
def registeredSmoothing : List String := ["moving_average", "exponential", "gaussian"]

/-- Modelled from the spec: stage validation against the registry and
the parameter schema (`windowSize : int ≥ 1`); an unregistered key
signals `UnknownMethodError`, an out-of-bounds parameter signals
`ParameterOutOfRangeError`. -/
def validateStage (rs : RawStage) : Except Err Unit :=
  if rs.type ∈ registeredSmoothing then
    if 1 ≤ rs.windowSize then .ok () else .error (.parameterOutOfRange "window_size")
  else .error (.unknownMethod rs.type)

/-- Modelled from the spec: fail-fast validation of every stage of a
pipeline before any stage runs. -/
def validatePipeline : List RawStage → Except Err Unit
  | [] => .ok ()
  | rs :: rest => do
    validateStage rs
    validatePipeline rest

/-- Modelled from the spec: dispatch of one validated stage to its
smoothing algorithm.  `gk w` is the discretized Gaussian kernel the
backend derives from window size `w`. -/
def applyStageV (gk : ℕ → ℤ → ℚ) (rs : RawStage) (vs : List ℚ) : List ℚ :=
  if rs.type = "moving_average" then movingAverage rs.windowSize.toNat vs
  else if rs.type = "exponential" then exponentialSmooth rs.windowSize.toNat vs
  else if rs.type = "gaussian" then gaussianSmooth (gk rs.windowSize.toNat) rs.windowSize.toNat vs
  else vs

/-- Modelled from the spec: the pipeline executor
(`POST /api/preprocessing/apply-pipeline`, absent from the handed-over
sources).  Shape check, then fail-fast validation of every stage, then a
left-to-right fold feeding stage i's output values into stage i+1 while
the timestamps stay untouched. -/
def applyPipeline (gk : ℕ → ℤ → ℚ) (s : Series) (stages : List RawStage) :
    Except Err Series :=
  if s.timestamps.length = s.values.length then
    match validatePipeline stages with
    | .error e => .error e
    | .ok _ => .ok ⟨s.timestamps, stages.foldl (fun vs rs => applyStageV gk rs vs) s.values⟩
  else .error .shapeMismatch

/-- The valid (non-NaN) values of a detection series. -/
def validValues (vs : List (Option ℚ)) : List ℚ := vs.filterMap id

/-- Population variance of a list of rationals (`0` on the empty
list). -/
def varQ (l : List ℚ) : ℚ := ((l.map (fun x => (x - meanQ l) ^ 2)).sum) / l.length

/-- Modelled from the spec: the per-point Z-score flag of the
statistical detection family (absent from the handed-over sources).
A missing value is never flagged; a valid value `v` is flagged exactly
when `|v - μ| > k·σ` with `σ = √v2`, expressed in exact rational
arithmetic: for `k ≥ 0` this is `k²·v2 < (v-μ)²`, and for `k < 0` (where
`k·σ` is negative whenever `σ > 0`) it is `¬(v2 = 0 ∧ v = μ)`. -/
def zscoreFlag (k μ v2 : ℚ) (ov : Option ℚ) : Bool :=
  match ov with
  | none => false
  | some v => if 0 ≤ k then decide (k ^ 2 * v2 < (v - μ) ^ 2) else decide (¬(v2 = 0 ∧ v = μ))

/-- Modelled from the spec: the per-point anomaly flags of statistical
(Z-score) detection with threshold `k`; mean and variance are taken over
the valid values of the series. -/
def zscoreFlags (k : ℚ) (vs : List (Option ℚ)) : List Bool :=
  vs.map (zscoreFlag k (meanQ (validValues vs)) (varQ (validValues vs)))

/-- Modelled from the spec: `anomaly_indices` — the ascending positions
whose flag is true. -/
def anomalyIndicesZ (k : ℚ) (vs : List (Option ℚ)) : List ℕ :=
  (List.range vs.length).filter (fun i => (zscoreFlags k vs).getD i false)

/-- Modelled from the spec: `anomaly_count` of statistical detection. -/
def anomalyCountZ (k : ℚ) (vs : List (Option ℚ)) : ℕ :=
  (zscoreFlags k vs).count true

/-- The detection result record (spec §3, wire fields of
`DetectionMethodSettings.tsx`). -/
structure DetectionResult where
  timestamps : List String
  values : List (Option ℚ)
  anomalies : List Bool
  anomalyIdx : List ℕ
  totalPoints : ℕ
  validPoints : ℕ
  anomalyCount : ℕ
  anomalyRatioQ : ℚ
deriving Repr, DecidableEq

/-- Modelled from the spec: the statistical detection entry point
(`POST /api/detection/detect`, absent from the handed-over sources) for
the Z-score method with threshold `k`: shape check, then flags, indices
and summary statistics; an empty series yields the empty result rather
than an error. -/
def detectZ (k : ℚ) (s : DSeries) : Except Err DetectionResult :=
  if s.timestamps.length = s.values.length then
    .ok { timestamps := s.timestamps
          values := s.values
          anomalies := zscoreFlags k s.values
          anomalyIdx := anomalyIndicesZ k s.values
          totalPoints := s.values.length
          validPoints := (validValues s.values).length
          anomalyCount := anomalyCountZ k s.values
          anomalyRatioQ := if (validValues s.values).length = 0 then 0
            else (anomalyCountZ k s.values : ℚ) / ((validValues s.values).length : ℚ) }
  else .error .shapeMismatch

/-- Embedded from `DataPreprocessing.tsx` (`applyPreprocessing`,
src/unnamed/part_000 lines 371-423): the processed series shown by the
frontend, as a function of the detection-window data, the configured
method list, and the backend response.  Empty input data short-circuits
to the empty series without any backend call; an empty method list
short-circuits to the input data; a failed response resets the processed
series to the input data. -/
def frontendProcessed (detectionData : Series) (methods : List RawStage)
    (response : Except Err Series) : Series :=
  if detectionData.timestamps.length = 0 then ⟨[], []⟩
  else if methods.length = 0 then detectionData
  else
    match response with
    | .ok d => d
    | .error _ => detectionData

/-- Embedded from `AnomalyDetection.tsx` (lines 77-84): the series
handed to `DetectionMethodSettings` is the processed series when its
timestamps list is non-empty, and the raw detection-window series
otherwise. -/
def detectionInputSeries (processedData detectionData : Series) : Series :=
  if processedData.timestamps.length > 0 then processedData else detectionData

/-- Minimum of a list of rationals (`0` on the empty list). -/
def listMin : List ℚ → ℚ
  | [] => 0
  | x :: xs => xs.foldl min x

/-- Maximum of a list of rationals (`0` on the empty list). -/
def listMax : List ℚ → ℚ
  | [] => 0
  | x :: xs => xs.foldl max x

/-- The example series of the specification's testable properties. -/
def exValues : List ℚ := [1, 5, 2, 8, 3, 6, 4, 7]

/-- The example series on the detection path (all points valid). -/
def exDValues : List (Option ℚ) := exValues.map some

/-! ## Helper lemmas -/

theorem foldl_min_le_init (xs : List ℚ) (a : ℚ) : xs.foldl min a ≤ a := by
  induction xs generalizing a with
  | nil => exact le_refl a
  | cons y ys ih =>
    calc (y :: ys).foldl min a = ys.foldl min (min a y) := rfl
    _ ≤ min a y := ih (min a y)
    _ ≤ a := min_le_left a y

theorem foldl_min_le_mem (xs : List ℚ) (a x : ℚ) (hx : x ∈ xs) : xs.foldl min a ≤ x := by
  induction xs generalizing a with
  | nil => cases hx
  | cons y ys ih =>
    rcases List.mem_cons.1 hx with h | h
    · subst h
      calc (x :: ys).foldl min a = ys.foldl min (min a x) := rfl
      _ ≤ min a x := foldl_min_le_init ys (min a x)
      _ ≤ x := min_le_right a x
    · exact ih (min a y) h

theorem init_le_foldl_max (xs : List ℚ) (a : ℚ) : a ≤ xs.foldl max a := by
  induction xs generalizing a with
  | nil => exact le_refl a
  | cons y ys ih =>
    calc a ≤ max a y := le_max_left a y
    _ ≤ ys.foldl max (max a y) := ih (max a y)
    _ = (y :: ys).foldl max a := rfl

theorem mem_le_foldl_max (xs : List ℚ) (a x : ℚ) (hx : x ∈ xs) : x ≤ xs.foldl max a := by
  induction xs generalizing a with
  | nil => cases hx
  | cons y ys ih =>
    rcases List.mem_cons.1 hx with h | h
    · subst h
      calc x ≤ max a x := le_max_right a x
      _ ≤ ys.foldl max (max a x) := init_le_foldl_max ys (max a x)
      _ = (x :: ys).foldl max a := rfl
    · exact ih (max a y) h

theorem listMin_le_mem {l : List ℚ} {x : ℚ} (hx : x ∈ l) : listMin l ≤ x := by
  cases l with
  | nil => cases hx
  | cons c cs =>
    rcases List.mem_cons.1 hx with h | h
    · subst h; exact foldl_min_le_init cs x
    · exact foldl_min_le_mem cs c x h

theorem mem_le_listMax {l : List ℚ} {x : ℚ} (hx : x ∈ l) : x ≤ listMax l := by
  cases l with
  | nil => cases hx
  | cons c cs =>
    rcases List.mem_cons.1 hx with h | h
    · subst h; exact init_le_foldl_max cs x
    · exact mem_le_foldl_max cs c x h

theorem le_meanQ_of_forall_le {l : List ℚ} {a : ℚ} (hne : l ≠ []) (h : ∀ x ∈ l, a ≤ x) :
    a ≤ meanQ l := by
  have hlen : (0 : ℚ) < l.length := by
    exact_mod_cast List.length_pos.mpr hne
  rw [meanQ, le_div_iff hlen]
  have hs := List.card_nsmul_le_sum l a h
  rw [nsmul_eq_mul] at hs
  linarith

theorem meanQ_le_of_forall_le {l : List ℚ} {b : ℚ} (hne : l ≠ []) (h : ∀ x ∈ l, x ≤ b) :
    meanQ l ≤ b := by
  have hlen : (0 : ℚ) < l.length := by
    exact_mod_cast List.length_pos.mpr hne
  rw [meanQ, div_le_iff hlen]
  have hs := List.sum_le_card_nsmul l b h
  rw [nsmul_eq_mul] at hs
  linarith

theorem meanQ_bounds {l : List ℚ} (hne : l ≠ []) :
    listMin l ≤ meanQ l ∧ meanQ l ≤ listMax l :=
  ⟨le_meanQ_of_forall_le hne fun _ hx => listMin_le_mem hx,
   meanQ_le_of_forall_le hne fun _ hx => mem_le_listMax hx⟩

theorem weightedMean_bounds {wxs : List (ℚ × ℚ)} {a b : ℚ} (hne : wxs ≠ [])
    (hw : ∀ p ∈ wxs, 0 < p.1) (hab : ∀ p ∈ wxs, a ≤ p.2 ∧ p.2 ≤ b) :
    a ≤ weightedMean wxs ∧ weightedMean wxs ≤ b := by
  have hW : 0 < (wxs.map Prod.fst).sum := by
    refine List.sum_pos _ (fun x hx => ?_) (by simpa using hne)
    rcases List.mem_map.1 hx with ⟨p, hp, rfl⟩
    exact hw p hp
  have hlow : (wxs.map fun p => p.1 * a).sum ≤ (wxs.map fun p => p.1 * p.2).sum :=
    List.sum_le_sum fun p hp =>
      mul_le_mul_of_nonneg_left (hab p hp).1 (hw p hp).le
  have hhigh : (wxs.map fun p => p.1 * p.2).sum ≤ (wxs.map fun p => p.1 * b).sum :=
    List.sum_le_sum fun p hp =>
      mul_le_mul_of_nonneg_left (hab p hp).2 (hw p hp).le
  have hla : (wxs.map fun p => p.1 * a).sum = (wxs.map Prod.fst).sum * a := by
    simpa using (List.sum_map_mul_right wxs Prod.fst a)
  have hlb : (wxs.map fun p => p.1 * b).sum = (wxs.map Prod.fst).sum * b := by
    simpa using (List.sum_map_mul_right wxs Prod.fst b)
  constructor
  · rw [weightedMean, le_div_iff hW]
    calc a * (wxs.map Prod.fst).sum = (wxs.map Prod.fst).sum * a := mul_comm _ _
    _ = (wxs.map fun p => p.1 * a).sum := hla.symm
    _ ≤ (wxs.map fun p => p.1 * p.2).sum := hlow
  · rw [weightedMean, div_le_iff hW]
    calc (wxs.map fun p => p.1 * p.2).sum ≤ (wxs.map fun p => p.1 * b).sum := hhigh
    _ = (wxs.map Prod.fst).sum * b := hlb
    _ = b * (wxs.map Prod.fst).sum := mul_comm _ _

theorem windowSlice_ne_nil {r i : ℕ} {vs : List ℚ} (h : i < vs.length) :
    windowSlice r i vs ≠ [] := by
  rw [← List.length_pos, windowSlice, List.length_take, List.length_drop]
  omega

theorem movingAverage_length (w : ℕ) (vs : List ℚ) :
    (movingAverage w vs).length = vs.length := by
  simp [movingAverage]

theorem movingAverage_get? {w : ℕ} {vs : List ℚ} {i : ℕ} (h : i < vs.length) :
    (movingAverage w vs).get? i = some (meanQ (windowSlice (w / 2) i vs)) := by
  rw [movingAverage, List.get?_map, List.get?_range h, Option.map_some']

theorem windowIdx_ne_nil {r i n : ℕ} (h : i < n) : windowIdx r i n ≠ [] := by
  rw [← List.length_pos, windowIdx, List.length_map, List.length_range]
  omega

theorem mem_windowIdx {r i n j : ℕ} (hj : j ∈ windowIdx r i n) :
    i - r ≤ j ∧ j ≤ min (i + r) (n - 1) := by
  rw [windowIdx] at hj
  rcases List.mem_map.1 hj with ⟨t, ht, rfl⟩
  rw [List.mem_range] at ht
  omega

theorem gaussianSmooth_length (kernel : ℤ → ℚ) (w : ℕ) (vs : List ℚ) :
    (gaussianSmooth kernel w vs).length = vs.length := by
  simp [gaussianSmooth]

theorem gaussianSmooth_get? {kernel : ℤ → ℚ} {w : ℕ} {vs : List ℚ} {i : ℕ}
    (h : i < vs.length) :
    (gaussianSmooth kernel w vs).get? i =
      some (weightedMean ((windowIdx w i vs.length).map
        (fun (j : ℕ) => (kernel ((j : ℤ) - (i : ℤ)), vs.getD j 0)))) := by
  rw [gaussianSmooth, List.get?_map, List.get?_range h, Option.map_some']

theorem expSmoothAux_length (α p : ℚ) (l : List ℚ) :
    (expSmoothAux α p l).length = l.length := by
  induction l generalizing p with
  | nil => rfl
  | cons v rest ih => simp [expSmoothAux, ih]

theorem exponentialSmooth_length (w : ℕ) (vs : List ℚ) :
    (exponentialSmooth w vs).length = vs.length := by
  cases vs with
  | nil => rfl
  | cons v rest => simp [exponentialSmooth, expSmoothAux_length]

theorem expSmoothAux_get?_succ (α : ℚ) :
    ∀ (l : List ℚ) (p : ℚ) (i : ℕ) (v o : ℚ), l.get? (i + 1) = some v →
      (expSmoothAux α p l).get? i = some o →
      (expSmoothAux α p l).get? (i + 1) = some (α * v + (1 - α) * o)
  | [], _, _, _, _, hv, _ => by cases hv
  | x :: rest, p, 0, v, o, hv, ho => by
    have hrest : rest.get? 0 = some v := hv
    cases rest with
    | nil => cases hrest
    | cons r0 rest' =>
      have hv0 : r0 = v := by simpa using hrest
      have ho0 : α * x + (1 - α) * p = o := by
        simpa [expSmoothAux] using ho
      subst hv0
      subst ho0
      simp [expSmoothAux]
  | x :: rest, p, i + 1, v, o, hv, ho => by
    have hv' : rest.get? (i + 1) = some v := hv
    have ho' : (expSmoothAux α (α * x + (1 - α) * p) rest).get? i = some o := by
      simpa [expSmoothAux] using ho
    have := expSmoothAux_get?_succ α rest (α * x + (1 - α) * p) i v o hv' ho'
    simpa [expSmoothAux] using this

theorem exponentialSmooth_get?_zero {w : ℕ} {vs : List ℚ} (h : vs ≠ []) :
    (exponentialSmooth w vs).get? 0 = vs.get? 0 := by
  cases vs with
  | nil => exact absurd rfl h
  | cons v rest => rfl

theorem exponentialSmooth_get?_succ {w : ℕ} {vs : List ℚ} {i : ℕ} {v o : ℚ}
    (hv : vs.get? (i + 1) = some v) (ho : (exponentialSmooth w vs).get? i = some o) :
    (exponentialSmooth w vs).get? (i + 1) =
      some (2 / ((w : ℚ) + 1) * v + (1 - 2 / ((w : ℚ) + 1)) * o) := by
  cases vs with
  | nil => cases hv
  | cons x rest =>
    cases i with
    | zero =>
      have hrest : rest.get? 0 = some v := hv
      have ho0 : x = o := by simpa [exponentialSmooth] using ho
      cases rest with
      | nil => cases hrest
      | cons r0 rest' =>
        have hv0 : r0 = v := by simpa using hrest
        subst hv0
        subst ho0
        simp [exponentialSmooth, expSmoothAux]
    | succ n =>
      have hv' : rest.get? (n + 1) = some v := hv
      have ho' : (expSmoothAux (2 / ((w : ℚ) + 1)) x rest).get? n = some o := by
        simpa [exponentialSmooth] using ho
      have := expSmoothAux_get?_succ (2 / ((w : ℚ) + 1)) rest x n v o hv' ho'
      simpa [exponentialSmooth] using this

/-! ## Claim theorems -/

/-- C1: Moving-average smoothing maps every input sequence to an
equal-length sequence where `output[i]` is the arithmetic mean of the
input values in the symmetric window of radius `floor(windowSize/2)`
centred at `i`, clipped to the array bounds (edge positions average only
the in-bounds subset, no zero padding); for `[1,5,2,8,3,6,4,7]` with
`windowSize=3` the output is exactly
`[3, 8/3, 5, 13/3, 17/3, 13/3, 17/3, 11/2]`, which rounds (to within
half of 0.01) to `[3.0, 2.67, 5.0, 4.33, 5.67, 4.33, 5.67, 5.5]`, and
for `[1.0, 5.0, 2.0]` with `windowSize=3` the output is exactly
`[3, 8/3, 7/2]`, which rounds to `[3.0, 2.67, 3.5]`. -/
theorem claim_C1 :
    (∀ (w : ℕ) (vs : List ℚ), (movingAverage w vs).length = vs.length) ∧
    (∀ (w : ℕ) (vs : List ℚ) (i : ℕ), i < vs.length →
      (movingAverage w vs).get? i =
        some ((windowSlice (w / 2) i vs).sum / (windowSlice (w / 2) i vs).length)) ∧
    movingAverage 3 exValues = [3, 8/3, 5, 13/3, 17/3, 13/3, 17/3, 11/2] ∧
    List.Forall₂ (fun a b => |a - b| ≤ 1 / 200) (movingAverage 3 exValues)
      [3, 267/100, 5, 433/100, 567/100, 433/100, 567/100, 11/2] ∧
    movingAverage 3 [1, 5, 2] = [3, 8/3, 7/2] ∧
    List.Forall₂ (fun a b => |a - b| ≤ 1 / 200) (movingAverage 3 [1, 5, 2])
      [3, 267/100, 7/2] := by
  refine ⟨movingAverage_length, fun w vs i h => ?_, ?_, ?_, ?_, ?_⟩
  · rw [movingAverage_get? h, meanQ]
  · with_unfolding_all decide
  · with_unfolding_all decide
  · with_unfolding_all decide
  · with_unfolding_all decide

/-- Witness for C1 at a concrete input: the mean-of-window clause at
index 2 of the example series. -/
theorem claim_C1_witness :
    2 < exValues.length ∧
    (movingAverage 3 exValues).get? 2 =
      some ((windowSlice (3 / 2) 2 exValues).sum / (windowSlice (3 / 2) 2 exValues).length) :=
  ⟨by decide, claim_C1.2.1 3 exValues 2 (by decide)⟩

/-- C2: applying an empty pipeline is the identity — the executor
returns the input series unchanged (same timestamps, same values), and
the frontend likewise passes the detection data through unchanged when
its method list is empty. -/
theorem claim_C2 :
    (∀ (gk : ℕ → ℤ → ℚ) (s : Series), s.timestamps.length = s.values.length →
      applyPipeline gk s [] = .ok s) ∧
    (∀ (d : Series) (resp : Except Err Series), d.timestamps.length ≠ 0 →
      frontendProcessed d [] resp = d) := by
  constructor
  · intro gk s h
    simp [applyPipeline, validatePipeline, h]
  · intro d resp h
    simp [frontendProcessed, h]

/-- Witness for C2 at a concrete input. -/
theorem claim_C2_witness :
    (Series.mk ["t0"] [1]).timestamps.length = (Series.mk ["t0"] [1]).values.length ∧
    applyPipeline (fun _ _ => 1) (Series.mk ["t0"] [1]) [] = .ok (Series.mk ["t0"] [1]) :=
  ⟨rfl, claim_C2.1 (fun _ _ => 1) (Series.mk ["t0"] [1]) rfl⟩

/-- C3: exponential smoothing with parameter `windowSize` preserves
length and satisfies `output[0] = values[0]` and
`output[i] = α·values[i] + (1-α)·output[i-1]` with `α = 2/(windowSize+1)`
for `i > 0`; for `[1,5,2,8,3,6,4,7]` (with `windowSize=3`, hence
`α = 1/2`) it yields exactly `[1, 3, 5/2, 21/4, 33/8, 81/16, 145/32,
369/64]`, which rounds (to within half of 0.01) to
`[1.0, 3.0, 2.5, 5.25, 4.12, 5.06, 4.53, 5.77]`. -/
theorem claim_C3 :
    (∀ (w : ℕ) (vs : List ℚ), vs ≠ [] →
      (exponentialSmooth w vs).get? 0 = vs.get? 0) ∧
    (∀ (w : ℕ) (vs : List ℚ) (i : ℕ) (v o : ℚ), vs.get? (i + 1) = some v →
      (exponentialSmooth w vs).get? i = some o →
      (exponentialSmooth w vs).get? (i + 1) =
        some (2 / ((w : ℚ) + 1) * v + (1 - 2 / ((w : ℚ) + 1)) * o)) ∧
    (∀ (w : ℕ) (vs : List ℚ), (exponentialSmooth w vs).length = vs.length) ∧
    exponentialSmooth 3 exValues = [1, 3, 5/2, 21/4, 33/8, 81/16, 145/32, 369/64] ∧
    List.Forall₂ (fun a b => |a - b| ≤ 1 / 200) (exponentialSmooth 3 exValues)
      [1, 3, 5/2, 21/4, 412/100, 506/100, 453/100, 577/100] := by
  refine ⟨fun w vs h => exponentialSmooth_get?_zero h,
    fun w vs i v o hv ho => exponentialSmooth_get?_succ hv ho,
    exponentialSmooth_length, ?_, ?_⟩
  · with_unfolding_all decide
  · with_unfolding_all decide

/-- Witness for C3 at a concrete input: the recurrence at index 1 of
the example series. -/
theorem claim_C3_witness :
    exValues.get? 1 = some 5 ∧
    (exponentialSmooth 3 exValues).get? 0 = some 1 ∧
    (exponentialSmooth 3 exValues).get? 1 =
      some (2 / ((3 : ℚ) + 1) * 5 + (1 - 2 / ((3 : ℚ) + 1)) * 1) :=
  ⟨rfl, by with_unfolding_all rfl,
    claim_C3.2.1 3 exValues 0 5 1 rfl (by with_unfolding_all rfl)⟩

/-- C10: in `AnomalyDetection.tsx` the series handed to the detection
stage is exactly the preprocessed series whenever its timestamps list is
non-empty, and otherwise the raw detection-window series; no other
series can result. -/
theorem claim_C10 :
    (∀ (p d : Series), 0 < p.timestamps.length → detectionInputSeries p d = p) ∧
    (∀ (p d : Series), p.timestamps.length = 0 → detectionInputSeries p d = d) := by
  constructor
  · intro p d h
    simp [detectionInputSeries, h]
  · intro p d h
    simp [detectionInputSeries, h]

/-- Witness for C10 at concrete inputs: a non-empty processed series is
routed to detection, an empty one falls back to the raw series. -/
theorem claim_C10_witness :
    detectionInputSeries (Series.mk ["t0"] [1]) (Series.mk ["t1"] [2]) = Series.mk ["t0"] [1] ∧
    detectionInputSeries (Series.mk [] []) (Series.mk ["t1"] [2]) = Series.mk ["t1"] [2] :=
  ⟨claim_C10.1 (Series.mk ["t0"] [1]) (Series.mk ["t1"] [2]) (by decide),
   claim_C10.2 (Series.mk [] []) (Series.mk ["t1"] [2]) rfl⟩

theorem applyStageV_length (gk : ℕ → ℤ → ℚ) (rs : RawStage) (vs : List ℚ) :
    (applyStageV gk rs vs).length = vs.length := by
  rw [applyStageV]
  split_ifs <;>
    simp [movingAverage_length, exponentialSmooth_length, gaussianSmooth_length]

theorem foldl_stages_length (gk : ℕ → ℤ → ℚ) (stages : List RawStage) (vs : List ℚ) :
    (stages.foldl (fun acc rs => applyStageV gk rs acc) vs).length = vs.length := by
  induction stages generalizing vs with
  | nil => rfl
  | cons rs rest ih => rw [List.foldl_cons, ih, applyStageV_length]

theorem applyPipeline_ok {gk : ℕ → ℤ → ℚ} {s : Series} {stages : List RawStage} {out : Series}
    (h : applyPipeline gk s stages = .ok out) :
    out = ⟨s.timestamps, stages.foldl (fun acc rs => applyStageV gk rs acc) s.values⟩ := by
  by_cases hlen : s.timestamps.length = s.values.length
  · rw [applyPipeline, if_pos hlen] at h
    cases hvp : validatePipeline stages <;> rw [hvp] at h
    · cases h
    · cases h
      rfl
  · rw [applyPipeline, if_neg hlen] at h
    cases h

/-- C4: the pipeline executor applies the stages sequentially
left-to-right (a fold feeding stage i's output values into stage i+1),
keeps the timestamps identical to the input's, and preserves the length
of the values list; every individual preprocessing stage preserves
length. -/
theorem claim_C4 :
    (∀ (gk : ℕ → ℤ → ℚ) (s : Series) (stages : List RawStage) (out : Series),
      applyPipeline gk s stages = .ok out →
      out.timestamps = s.timestamps ∧
      out.values = stages.foldl (fun acc rs => applyStageV gk rs acc) s.values ∧
      out.values.length = s.values.length) ∧
    (∀ (gk : ℕ → ℤ → ℚ) (rs : RawStage) (vs : List ℚ),
      (applyStageV gk rs vs).length = vs.length) := by
  constructor
  · intro gk s stages out h
    have := applyPipeline_ok h
    subst this
    exact ⟨rfl, rfl, foldl_stages_length gk stages s.values⟩
  · exact applyStageV_length

/-- Witness for C4 at a concrete input: a one-stage moving-average
pipeline on a three-point series. -/
theorem claim_C4_witness :
    applyPipeline (fun _ _ => 1) (Series.mk ["a", "b", "c"] [1, 5, 2])
      [RawStage.mk "moving_average" 3] = .ok (Series.mk ["a", "b", "c"] [3, 8/3, 7/2]) ∧
    (Series.mk ["a", "b", "c"] [3, 8/3, 7/2]).timestamps =
      (Series.mk ["a", "b", "c"] [1, 5, 2]).timestamps ∧
    (Series.mk ["a", "b", "c"] [3, 8/3, 7/2]).values.length =
      (Series.mk ["a", "b", "c"] [1, 5, 2]).values.length := by
  have hok : applyPipeline (fun _ _ => 1) (Series.mk ["a", "b", "c"] [1, 5, 2])
      [RawStage.mk "moving_average" 3] = .ok (Series.mk ["a", "b", "c"] [3, 8/3, 7/2]) := by
    with_unfolding_all rfl
  have h := claim_C4.1 (fun _ _ => 1) (Series.mk ["a", "b", "c"] [1, 5, 2])
    [RawStage.mk "moving_average" 3] (Series.mk ["a", "b", "c"] [3, 8/3, 7/2]) hok
  exact ⟨hok, h.1, h.2.2⟩

/-- C6: moving-average and Gaussian smoothing never extrapolate — every
output value lies within the min/max envelope of its local in-bounds
input window, edge positions included (for the Gaussian this holds for
every pointwise-positive kernel, in particular the discrete Gaussian
weights). -/
theorem claim_C6 :
    (∀ (w : ℕ) (vs : List ℚ) (i : ℕ) (m : ℚ),
      (movingAverage w vs).get? i = some m →
      listMin (windowSlice (w / 2) i vs) ≤ m ∧ m ≤ listMax (windowSlice (w / 2) i vs)) ∧
    (∀ (kernel : ℤ → ℚ) (w : ℕ) (vs : List ℚ) (i : ℕ) (m : ℚ),
      (∀ z : ℤ, 0 < kernel z) →
      (gaussianSmooth kernel w vs).get? i = some m →
      listMin ((windowIdx w i vs.length).map (fun j => vs.getD j 0)) ≤ m ∧
      m ≤ listMax ((windowIdx w i vs.length).map (fun j => vs.getD j 0))) := by
  constructor
  · intro w vs i m hm
    have hi : i < vs.length := by
      have := List.get?_eq_some.1 hm
      rcases this with ⟨hlt, -⟩
      rwa [movingAverage_length] at hlt
    rw [movingAverage_get? hi] at hm
    have hm' : m = meanQ (windowSlice (w / 2) i vs) := by
      exact (Option.some.injEq _ _ ▸ hm.symm)
    subst hm'
    exact meanQ_bounds (windowSlice_ne_nil hi)
  · intro kernel w vs i m hker hm
    have hi : i < vs.length := by
      have := List.get?_eq_some.1 hm
      rcases this with ⟨hlt, -⟩
      rwa [gaussianSmooth_length] at hlt
    rw [gaussianSmooth_get? hi] at hm
    have hm' : m = weightedMean ((windowIdx w i vs.length).map
        (fun (j : ℕ) => (kernel ((j : ℤ) - (i : ℤ)), vs.getD j 0))) := by
      exact (Option.some.injEq _ _ ▸ hm.symm)
    subst hm'
    apply weightedMean_bounds
    · intro hnil
      exact windowIdx_ne_nil hi (List.map_eq_nil.mp hnil)
    · intro p hp
      rcases List.mem_map.1 hp with ⟨j, hj, rfl⟩
      exact hker _
    · intro p hp
      rcases List.mem_map.1 hp with ⟨j, hj, rfl⟩
      have hmem : vs.getD j 0 ∈ (windowIdx w i vs.length).map (fun j => vs.getD j 0) :=
        List.mem_map.2 ⟨j, hj, rfl⟩
      exact ⟨listMin_le_mem hmem, mem_le_listMax hmem⟩

/-- Witness for C6 at concrete inputs: the first output point of the
moving average and of a positive-kernel Gaussian smoothing of
`[1, 5, 2]` lies within its window envelope. -/
theorem claim_C6_witness :
    ((movingAverage 3 [1, 5, 2]).get? 0 = some 3 ∧
      listMin (windowSlice (3 / 2) 0 [1, 5, 2]) ≤ 3 ∧
      3 ≤ listMax (windowSlice (3 / 2) 0 [1, 5, 2])) ∧
    ((gaussianSmooth (fun _ => 1) 1 [1, 5, 2]).get? 0 = some 3 ∧
      listMin ((windowIdx 1 0 ([1, 5, 2] : List ℚ).length).map
        (fun j => ([1, 5, 2] : List ℚ).getD j 0)) ≤ 3 ∧
      3 ≤ listMax ((windowIdx 1 0 ([1, 5, 2] : List ℚ).length).map
        (fun j => ([1, 5, 2] : List ℚ).getD j 0))) := by
  have h1 : (movingAverage 3 [1, 5, 2]).get? 0 = some 3 := by with_unfolding_all rfl
  have h2 : (gaussianSmooth (fun _ => 1) 1 [1, 5, 2]).get? 0 = some 3 := by
    with_unfolding_all rfl
  exact ⟨⟨h1, claim_C6.1 3 [1, 5, 2] 0 3 h1⟩,
    ⟨h2, claim_C6.2 (fun _ => 1) 1 [1, 5, 2] 0 3 (fun _ => by norm_num) h2⟩⟩

theorem varQ_nonneg (l : List ℚ) : 0 ≤ varQ l := by
  rw [varQ]
  apply div_nonneg
  · apply List.sum_nonneg
    intro x hx
    rcases List.mem_map.1 hx with ⟨z, hz, rfl⟩
    positivity
  · exact_mod_cast Nat.zero_le _

theorem eq_zero_of_sum_eq_zero {l : List ℚ} (hnn : ∀ x ∈ l, 0 ≤ x) (hs : l.sum = 0) :
    ∀ x ∈ l, x = 0 := by
  induction l with
  | nil => intro x hx; cases hx
  | cons y ys ih =>
    have hy : 0 ≤ y := hnn y (List.mem_cons_self _ _)
    have hys : 0 ≤ ys.sum := List.sum_nonneg fun x hx => hnn x (List.mem_cons_of_mem _ hx)
    rw [List.sum_cons] at hs
    intro x hx
    rcases List.mem_cons.1 hx with rfl | hx'
    · linarith
    · exact ih (fun z hz => hnn z (List.mem_cons_of_mem _ hz)) (by linarith) x hx'

theorem mem_eq_mean_of_varQ_zero {l : List ℚ} (hv : varQ l = 0) {x : ℚ} (hx : x ∈ l) :
    x = meanQ l := by
  have hne : l ≠ [] := List.ne_nil_of_mem hx
  have hlen : ((l.length : ℚ)) ≠ 0 := by
    have h0 : 0 < l.length := List.length_pos.mpr hne
    exact_mod_cast h0.ne'
  rw [varQ, div_eq_zero_iff] at hv
  rcases hv with hv | hv
  · have hall := eq_zero_of_sum_eq_zero (l := l.map (fun z => (z - meanQ l) ^ 2))
      (fun y hy => by rcases List.mem_map.1 hy with ⟨z, hz, rfl⟩; positivity) hv
    have hxx : (x - meanQ l) ^ 2 ∈ l.map (fun z => (z - meanQ l) ^ 2) :=
      List.mem_map.2 ⟨x, hx, rfl⟩
    have hsq := hall _ hxx
    have : x - meanQ l = 0 := by
      exact pow_eq_zero_iff (n := 2) (by norm_num) |>.mp hsq
    linarith
  · exact absurd hv hlen

theorem zscore_sq_iff {k v2 x : ℝ} (hk : 0 ≤ k) (hv2 : 0 ≤ v2) :
    k ^ 2 * v2 < x ^ 2 ↔ k * Real.sqrt v2 < |x| := by
  have h1 : (k * Real.sqrt v2) * (k * Real.sqrt v2) = k ^ 2 * v2 := by
    rw [mul_mul_mul_comm, Real.mul_self_sqrt hv2]
    ring
  have h2 : |x| * |x| = x ^ 2 := by
    rw [abs_mul_abs_self]
    ring
  rw [mul_self_lt_mul_self_iff (mul_nonneg hk (Real.sqrt_nonneg _)) (abs_nonneg x), h1, h2]

theorem count_true_map_mono {α : Type} (l : List α) (f g : α → Bool)
    (h : ∀ x, f x = true → g x = true) :
    (l.map f).count true ≤ (l.map g).count true := by
  induction l with
  | nil => exact Nat.le_refl 0
  | cons y ys ih =>
    rw [List.map_cons, List.map_cons, List.count_cons, List.count_cons]
    cases hf : f y with
    | true =>
      rw [h y hf]
      simpa using ih
    | false =>
      cases hg : g y <;> simp <;> omega

theorem zscoreFlag_mono {k1 k2 μ v2 : ℚ} (hv2 : 0 ≤ v2) (hk : k1 ≤ k2) (ov : Option ℚ)
    (h : zscoreFlag k2 μ v2 ov = true) : zscoreFlag k1 μ v2 ov = true := by
  cases ov with
  | none => exact absurd h (by simp [zscoreFlag])
  | some v =>
    by_cases h1 : 0 ≤ k1
    · have h2 : 0 ≤ k2 := le_trans h1 hk
      rw [zscoreFlag, if_pos h2, decide_eq_true_iff] at h
      rw [zscoreFlag, if_pos h1, decide_eq_true_iff]
      have hsq : k1 ^ 2 ≤ k2 ^ 2 := pow_le_pow_left h1 hk 2
      nlinarith
    · by_cases h2 : 0 ≤ k2
      · rw [zscoreFlag, if_pos h2, decide_eq_true_iff] at h
        rw [zscoreFlag, if_neg h1, decide_eq_true_iff]
        rintro ⟨hz, hvm⟩
        rw [hz, hvm] at h
        simp at h
      · rw [zscoreFlag, if_neg h2] at h
        rw [zscoreFlag, if_neg h1]
        exact h

/-- The detection-path example series used by C7's witness: three equal
points and one outlier. -/
def exOutlier : List (Option ℚ) := [some 0, some 0, some 0, some 10]

/-- C5: statistical (Z-score) detection with threshold `k ≥ 0` flags
exactly the valid points with `|value - μ| > k·σ` (μ, σ² the mean and
population variance over the valid values); a zero variance (constant
series) flags nothing; NaN/missing points are never flagged and never
appear in `anomalyIndices`; on `[1,5,2,8,3,6,4,7]` with `k = 2` the
anomaly count is `0`. -/
theorem claim_C5 :
    (∀ (k : ℚ) (vs : List (Option ℚ)) (i : ℕ) (v : ℚ), 0 ≤ k →
      vs.get? i = some (some v) →
      ((zscoreFlags k vs).get? i = some true ↔
        ((k : ℝ)) * Real.sqrt ((varQ (validValues vs) : ℝ)) <
          |((v : ℝ)) - ((meanQ (validValues vs) : ℝ))|)) ∧
    (∀ (k : ℚ) (vs : List (Option ℚ)), varQ (validValues vs) = 0 →
      anomalyCountZ k vs = 0) ∧
    (∀ (k : ℚ) (vs : List (Option ℚ)) (i : ℕ), vs.get? i = some none →
      (zscoreFlags k vs).get? i = some false) ∧
    (∀ (k : ℚ) (vs : List (Option ℚ)) (i : ℕ), i ∈ anomalyIndicesZ k vs →
      vs.getD i none ≠ none) ∧
    anomalyCountZ 2 exDValues = 0 := by
  refine ⟨?_, ?_, ?_, ?_, ?_⟩
  · intro k vs i v hk hv
    rw [zscoreFlags, List.get?_map, hv, Option.map_some']
    rw [Option.some_inj]
    have hunf : (zscoreFlag k (meanQ (validValues vs)) (varQ (validValues vs)) (some v) = true)
        ↔ k ^ 2 * varQ (validValues vs) < (v - meanQ (validValues vs)) ^ 2 := by
      rw [zscoreFlag, if_pos hk, decide_eq_true_iff]
    rw [hunf, ← zscore_sq_iff (x := ((v : ℝ)) - ((meanQ (validValues vs) : ℝ)))
      (by exact_mod_cast hk) (by exact_mod_cast varQ_nonneg (validValues vs))]
    constructor
    · intro hlt
      exact_mod_cast hlt
    · intro hlt
      exact_mod_cast hlt
  · intro k vs hvar
    rw [anomalyCountZ, List.count_eq_zero]
    intro hmem
    rcases List.mem_map.1 hmem with ⟨ov, hov, hflag⟩
    cases ov with
    | none => simp [zscoreFlag] at hflag
    | some v =>
      have hvalid : v ∈ validValues vs := by
        rw [validValues, List.mem_filterMap]
        exact ⟨some v, hov, rfl⟩
      have hvmean : v = meanQ (validValues vs) := mem_eq_mean_of_varQ_zero hvar hvalid
      rw [zscoreFlag, hvar, hvmean] at hflag
      by_cases hk : 0 ≤ k
      · rw [if_pos hk] at hflag
        simp at hflag
      · rw [if_neg hk] at hflag
        simp at hflag
  · intro k vs i hv
    rw [zscoreFlags, List.get?_map, hv, Option.map_some']
    simp [zscoreFlag]
  · intro k vs i hi
    rw [anomalyIndicesZ, List.mem_filter] at hi
    obtain ⟨hmem, hflag⟩ := hi
    rw [List.mem_range] at hmem
    have hget : vs.get? i = some (vs.get ⟨i, hmem⟩) := List.get?_eq_get hmem
    have hgetD : vs.getD i none = vs.get ⟨i, hmem⟩ := by
      show (vs.get? i).getD none = _
      rw [hget, Option.getD_some]
    rw [hgetD]
    intro hnone
    have hfget : (zscoreFlags k vs).get? i =
        some (zscoreFlag k (meanQ (validValues vs)) (varQ (validValues vs)) (vs.get ⟨i, hmem⟩)) := by
      rw [zscoreFlags, List.get?_map, hget, Option.map_some']
    have hfd : (zscoreFlags k vs).getD i false =
        zscoreFlag k (meanQ (validValues vs)) (varQ (validValues vs)) (vs.get ⟨i, hmem⟩) := by
      show ((zscoreFlags k vs).get? i).getD false = _
      rw [hfget, Option.getD_some]
    rw [hfd, hnone] at hflag
    simp [zscoreFlag] at hflag
  · with_unfolding_all decide

/-- Witness for C5 at a concrete input: the characterization applied at
index 3 (value 8) of the example series with `k = 2`, together with the
example's anomaly count. -/
theorem claim_C5_witness :
    (0 : ℚ) ≤ 2 ∧
    exDValues.get? 3 = some (some 8) ∧
    ((zscoreFlags 2 exDValues).get? 3 = some true ↔
      ((2 : ℚ) : ℝ) * Real.sqrt ((varQ (validValues exDValues) : ℝ)) <
        |(((8 : ℚ)) : ℝ) - ((meanQ (validValues exDValues) : ℝ))|) :=
  ⟨by norm_num, rfl, claim_C5.1 2 exDValues 3 8 (by norm_num) rfl⟩

/-- C7: statistical detection is antitone in its threshold — for
`k1 ≤ k2` the anomaly count at `k2` never exceeds the one at `k1`. -/
theorem claim_C7 : ∀ (vs : List (Option ℚ)) (k1 k2 : ℚ), k1 ≤ k2 →
    anomalyCountZ k2 vs ≤ anomalyCountZ k1 vs := by
  intro vs k1 k2 hk
  rw [anomalyCountZ, anomalyCountZ, zscoreFlags, zscoreFlags]
  exact count_true_map_mono vs _ _
    (fun ov h => zscoreFlag_mono (varQ_nonneg (validValues vs)) hk ov h)

/-- Witness for C7 at a concrete input: on a series with one outlier,
the count at threshold 2 is bounded by the count at threshold 1. -/
theorem claim_C7_witness :
    (1 : ℚ) ≤ 2 ∧ anomalyCountZ 2 exOutlier ≤ anomalyCountZ 1 exOutlier :=
  ⟨by norm_num, claim_C7 exOutlier 1 2 (by norm_num)⟩

theorem applyStageV_nil (gk : ℕ → ℤ → ℚ) (rs : RawStage) : applyStageV gk rs [] = [] := by
  rw [applyStageV]
  split_ifs <;> rfl

theorem foldl_stages_nil (gk : ℕ → ℤ → ℚ) (stages : List RawStage) :
    stages.foldl (fun acc rs => applyStageV gk rs acc) ([] : List ℚ) = [] := by
  induction stages with
  | nil => rfl
  | cons rs rest ih => rw [List.foldl_cons, applyStageV_nil, ih]

theorem validatePipeline_error_of_unknown {stages : List RawStage} {rs : RawStage}
    (hmem : rs ∈ stages) (hunk : rs.type ∉ registeredSmoothing) :
    ∃ e, validatePipeline stages = .error e := by
  induction stages with
  | nil => cases hmem
  | cons s rest ih =>
    rcases List.mem_cons.1 hmem with rfl | hmem'
    · refine ⟨Err.unknownMethod rs.type, ?_⟩
      show (do validateStage rs; validatePipeline rest) = _
      rw [validateStage, if_neg hunk]
      rfl
    · cases hval : validateStage s with
      | error e =>
        refine ⟨e, ?_⟩
        show (do validateStage s; validatePipeline rest) = _
        rw [hval]
        rfl
      | ok u =>
        obtain ⟨e, he⟩ := ih hmem'
        refine ⟨e, ?_⟩
        show (do validateStage s; validatePipeline rest) = _
        rw [hval]
        exact he

/-- C8: on an empty input series both paths return an empty result
rather than an error — the frontend short-circuits any configured
pipeline to the empty processed series without a backend call
(src/unnamed/part_000 lines 372-376), every validated backend pipeline
maps the empty series to the empty series, and detection on the empty
series succeeds with zero points. -/
theorem claim_C8 :
    (∀ (d : Series) (methods : List RawStage) (resp : Except Err Series),
      d.timestamps.length = 0 → frontendProcessed d methods resp = Series.mk [] []) ∧
    (∀ (gk : ℕ → ℤ → ℚ) (stages : List RawStage), validatePipeline stages = .ok () →
      applyPipeline gk (Series.mk [] []) stages = .ok (Series.mk [] [])) ∧
    (∀ (k : ℚ), detectZ k (DSeries.mk [] []) =
      .ok (DetectionResult.mk [] [] [] [] 0 0 0 0)) := by
  refine ⟨?_, ?_, ?_⟩
  · intro d methods resp h
    simp [frontendProcessed, h]
  · intro gk stages hval
    simp [applyPipeline, hval, foldl_stages_nil gk stages]
  · intro k
    rfl

/-- Witness for C8 at concrete inputs: an empty detection window with a
configured moving-average stage short-circuits to the empty series, and
the validated backend pipeline maps the empty series to itself. -/
theorem claim_C8_witness :
    frontendProcessed (Series.mk [] []) [RawStage.mk "moving_average" 3]
      (.error .shapeMismatch) = Series.mk [] [] ∧
    validatePipeline [RawStage.mk "moving_average" 3] = .ok () ∧
    applyPipeline (fun _ _ => 1) (Series.mk [] []) [RawStage.mk "moving_average" 3] =
      .ok (Series.mk [] []) :=
  ⟨claim_C8.1 (Series.mk [] []) [RawStage.mk "moving_average" 3] (.error .shapeMismatch) rfl,
   by rfl,
   claim_C8.2.1 (fun _ _ => 1) [RawStage.mk "moving_average" 3] (by rfl)⟩

/-- C9: a pipeline containing the unknown method key `"not_a_method"`
makes the executor return an error and no series at all (fail-fast
validation, no partial data), and on a failed pipeline response the
frontend resets the displayed processed series to the unmodified input
series (src/unnamed/part_000 lines 406-419). -/
theorem claim_C9 :
    (∀ (gk : ℕ → ℤ → ℚ) (s : Series) (stages : List RawStage) (rs : RawStage),
      rs ∈ stages → rs.type = "not_a_method" →
      ∃ e, applyPipeline gk s stages = .error e) ∧
    (∀ (d : Series) (methods : List RawStage) (e : Err),
      d.timestamps.length ≠ 0 → methods ≠ [] →
      frontendProcessed d methods (.error e) = d) := by
  constructor
  · intro gk s stages rs hmem htype
    by_cases hlen : s.timestamps.length = s.values.length
    · have hunk : rs.type ∉ registeredSmoothing := by
        rw [htype]
        decide
      obtain ⟨e, he⟩ := validatePipeline_error_of_unknown hmem hunk
      refine ⟨e, ?_⟩
      rw [applyPipeline, if_pos hlen, he]
    · exact ⟨.shapeMismatch, by rw [applyPipeline, if_neg hlen]⟩
  · intro d methods e hd hm
    have hml : methods.length ≠ 0 := by
      simpa [List.length_eq_zero] using hm
    simp [frontendProcessed, hd, hml]

/-- Witness for C9 at concrete inputs: a one-stage pipeline with the
unknown key errors, and the frontend reset applies on a failed
response. -/
theorem claim_C9_witness :
    (RawStage.mk "not_a_method" 3 ∈ [RawStage.mk "not_a_method" 3] ∧
      ∃ e, applyPipeline (fun _ _ => 1) (Series.mk ["t0"] [1])
        [RawStage.mk "not_a_method" 3] = .error e) ∧
    frontendProcessed (Series.mk ["t0"] [1]) [RawStage.mk "not_a_method" 3]
      (.error (.unknownMethod "not_a_method")) = Series.mk ["t0"] [1] :=
  ⟨⟨List.mem_singleton.2 rfl,
    claim_C9.1 (fun _ _ => 1) (Series.mk ["t0"] [1]) [RawStage.mk "not_a_method" 3]
      (RawStage.mk "not_a_method" 3) (List.mem_singleton.2 rfl) rfl⟩,
   claim_C9.2 (Series.mk ["t0"] [1]) [RawStage.mk "not_a_method" 3]
     (.unknownMethod "not_a_method") (by decide) (by decide)⟩
